import Mathlib

/-!
Formalization of the transition-scheduling core of `src/streamlit.py`
(class `SlideshowGenerator`): the function `create_seamless_sequence`
together with the clip construction performed by `generate_video`.

Durations and times are modelled as rationals.  A moviepy clip is modelled
by the scheduling-relevant part of its state: the image it shows, its
duration, its start time, and its fade-in/fade-out window lengths.  The
moviepy combinators used by the source (`set_start`, `set_duration`,
`crossfadein`, `fadein`, `fadeout`, `concatenate_videoclips` with
`method="compose"`, `CompositeVideoClip`) are modelled by their documented
moviepy 1.x behavior:
  * `fadein` / `crossfadein` / `fadeout` return a copy of the clip with the
    corresponding fade window set; they do not mutate the original clip and
    do not change its duration;
  * `concatenate_videoclips(clips, method="compose")` places the clips
    back-to-back at the cumulative sums of their durations (overwriting any
    start set earlier via `set_start`) and has total duration equal to the
    sum of the clip durations;
  * `CompositeVideoClip(clips)` keeps each clip's start and has total
    duration `max(clip.end for clip in clips)`.
-/

namespace Slideshow

/-- The scheduling-relevant state of a moviepy clip: the image shown, the
clip duration, the clip start time on the composite timeline, and the
lengths of the fade-in and fade-out windows. -/
structure Clip (α : Type) where
  image : α
  duration : ℚ
  start : ℚ
  fadeIn : ℚ
  fadeOut : ℚ
  deriving Repr, DecidableEq

/-- moviepy `clip.set_start(t)`: a copy of the clip starting at `t`. -/
def Clip.set_start {α : Type} (c : Clip α) (t : ℚ) : Clip α :=
  { c with start := t }

/-- moviepy `clip.set_duration(D)`: a copy of the clip with duration `D`. -/
def Clip.set_duration {α : Type} (c : Clip α) (D : ℚ) : Clip α :=
  { c with duration := D }

/-- moviepy `clip.crossfadein(d)`: a copy of the clip that fades in
(through its mask) over its first `d` seconds. -/
def Clip.crossfadein {α : Type} (c : Clip α) (d : ℚ) : Clip α :=
  { c with fadeIn := d }

/-- moviepy `clip.fadein(d)`: a copy of the clip fading in from black over
its first `d` seconds. -/
def Clip.fadein {α : Type} (c : Clip α) (d : ℚ) : Clip α :=
  { c with fadeIn := d }

/-- moviepy `clip.fadeout(d)`: a copy of the clip fading out to black over
its last `d` seconds. -/
def Clip.fadeout {α : Type} (c : Clip α) (d : ℚ) : Clip α :=
  { c with fadeOut := d }

/-- moviepy `clip.end`: the end time `start + duration`. -/
def Clip.endTime {α : Type} (c : Clip α) : ℚ :=
  c.start + c.duration

/-- moviepy `ImageClip(img)`: a fresh clip showing `img`, starting at 0,
with no fades; its duration is set afterwards via `set_duration`. -/
def ImageClip {α : Type} (a : α) : Clip α :=
  ⟨a, 0, 0, 0, 0⟩

/-- The output of sequencing: the scheduled segments and the total duration
of the composite video. -/
structure Timeline (α : Type) where
  segments : List (Clip α)
  totalDuration : ℚ
  deriving Repr, DecidableEq

/-- The cumulative-start assignment performed inside moviepy's
`concatenate_videoclips`: clip `i` is started at the sum of the durations
of clips `0..i-1` (any start assigned earlier is overwritten). -/
def assignStarts {α : Type} : ℚ → List (Clip α) → List (Clip α)
  | _, [] => []
  | t, c :: cs => c.set_start t :: assignStarts (t + c.duration) cs

/-- moviepy `concatenate_videoclips(clips, method="compose")`: plays the
clips back-to-back at the cumulative sums of their durations; the total
duration is the sum of the clip durations. -/
def concatenate_videoclips {α : Type} (clips : List (Clip α)) : Timeline α :=
  ⟨assignStarts 0 clips, (clips.map Clip.duration).sum⟩

/-- `max(clip.end for clip in clips)` (0 for an empty list, which never
occurs in this development). -/
def maxEnds {α : Type} : List (Clip α) → ℚ
  | [] => 0
  | [c] => c.endTime
  | c :: c2 :: cs => max c.endTime (maxEnds (c2 :: cs))

/-- moviepy `CompositeVideoClip(clips)`: keeps each clip's start; the total
duration is the maximum clip end time. -/
def CompositeVideoClip {α : Type} (clips : List (Clip α)) : Timeline α :=
  ⟨clips, maxEnds clips⟩

/-- The two transition types offered by the UI (`transition_type`). -/
inductive TransitionKind
  | crossfade
  | fade_black
  deriving Repr, DecidableEq

/-- The errors raised by the sequencing code: `ValueError("No clips
provided")` on an empty input (the spec's `EmptyInputError`). -/
inductive ScheduleError
  | emptyInput
  deriving Repr, DecidableEq

/-- Decidable equality of `Except` results, used to evaluate the model on
concrete inputs. -/
instance {ε σ : Type} [DecidableEq ε] [DecidableEq σ] :
    DecidableEq (Except ε σ) := fun x y =>
  match x, y with
  | .error e1, .error e2 =>
    if h : e1 = e2 then .isTrue (by rw [h])
    else .isFalse (by intro hc; cases hc; exact h rfl)
  | .error _, .ok _ => .isFalse (by intro hc; cases hc)
  | .ok _, .error _ => .isFalse (by intro hc; cases hc)
  | .ok a1, .ok a2 =>
    if h : a1 = a2 then .isTrue (by rw [h])
    else .isFalse (by intro hc; cases hc; exact h rfl)

/-- `SlideshowGenerator.create_seamless_sequence(clips, transition_duration,
transition_type)` from `src/streamlit.py`:

  * raises on an empty clip list;
  * for `transition_duration <= 0` concatenates the clips back-to-back;
  * otherwise appends a copy of the first clip (`working_clips = clips +
    [clips[0]]`) and schedules the working sequence:
      - `crossfade`: clip `i` is started at `i * (clip.duration -
        transition_duration)`, with `crossfadein(transition_duration)` for
        `i > 0`, and the clips are composited (`CompositeVideoClip`);
      - `fade_black`: iteration `i` (for `i < len(working_clips) - 1`)
        appends `working_clips[i].fadeout(transition_duration/2)` (with a
        `set_start` for `i > 0`); the `next_clip =
        working_clips[i+1].fadein(transition_duration/2)` built each
        iteration is appended only in the last iteration
        `i == len(working_clips) - 2` (for earlier `i` it is discarded —
        `fadein` does not mutate `working_clips[i+1]`), so the loop is
        equivalent to mapping the fade-out over indices `0..m-2` and then
        appending the faded-in copy of the final working clip; the result
        goes through `concatenate_videoclips(..., method="compose")`,
        which overwrites the starts set in the loop. -/
def create_seamless_sequence {α : Type} (clips : List (Clip α))
    (transition_duration : ℚ) (transition_type : TransitionKind) :
    Except ScheduleError (Timeline α) :=
  match clips with
  | [] => .error .emptyInput
  | c0 :: _ =>
    if transition_duration ≤ 0 then
      .ok (concatenate_videoclips clips)
    else
      let working_clips := clips ++ [c0]
      match transition_type with
      | .crossfade =>
        .ok (CompositeVideoClip ((List.range working_clips.length).map
          (fun i =>
            let current_clip := working_clips.getD i c0
            let start_time :=
              (i : ℚ) * (current_clip.duration - transition_duration)
            let current_clip :=
              if 0 < i then current_clip.crossfadein transition_duration
              else current_clip
            current_clip.set_start start_time)))
      | .fade_black =>
        let m := working_clips.length
        let processed := (List.range (m - 1)).map (fun i =>
          let clip := (working_clips.getD i c0).fadeout
            (transition_duration / 2)
          if 0 < i then clip.set_start ((i : ℚ) * clip.duration) else clip)
        let clip := (working_clips.getD (m - 2) c0).fadeout
          (transition_duration / 2)
        let next_clip := (working_clips.getD (m - 1) c0).fadein
          (transition_duration / 2)
        let next_clip := next_clip.set_start
          (((m - 2 : ℕ) : ℚ) * clip.duration + clip.duration
            - transition_duration / 2)
        .ok (concatenate_videoclips (processed ++ [next_clip]))

/-- The scheduling part of `SlideshowGenerator.generate_video`: each image
becomes an `ImageClip` with duration `settings['image_duration']`, and the
clips are handed to `create_seamless_sequence` with the configured
transition duration and type.  (`generate_video`'s own empty-input check
raises the same error as `create_seamless_sequence` does, so the
composition is unchanged by it.) -/
def schedule {α : Type} (images : List α) (imageDuration : ℚ)
    (kind : TransitionKind) (d : ℚ) : Except ScheduleError (Timeline α) :=
  create_seamless_sequence
    (images.map (fun a => (ImageClip a).set_duration imageDuration)) d kind

/-! ### Helper lemmas about the moviepy model -/

lemma assignStarts_length {α : Type} (t : ℚ) (l : List (Clip α)) :
    (assignStarts t l).length = l.length := by
  induction l generalizing t with
  | nil => rfl
  | cons c cs ih => simp [assignStarts, ih]

lemma sum_durations_uniform {α : Type} (D : ℚ) (l : List (Clip α))
    (hD : ∀ c ∈ l, c.duration = D) :
    (l.map Clip.duration).sum = l.length * D := by
  induction l with
  | nil => simp
  | cons c cs ih =>
    have hc : c.duration = D := hD c (List.mem_cons_self c cs)
    have hcs : ∀ x ∈ cs, x.duration = D := fun x hx =>
      hD x (List.mem_cons_of_mem c hx)
    simp [hc, ih hcs]
    ring

lemma getD_map {α β : Type} (f : α → β) (l : List α) (x : α) (i : Nat) :
    (l.map f).getD i (f x) = f (l.getD i x) := by
  induction l generalizing i with
  | nil => simp [List.getD]
  | cons c cs ih =>
    cases i with
    | zero => simp
    | succ j => simp [ih j]

lemma getD_append_length {α : Type} (l : List α) (x y : α) :
    (l ++ [x]).getD l.length y = x := by
  induction l with
  | nil => simp
  | cons c cs ih => simp [ih]

lemma getD_cons_append_length {α : Type} (a : α) (rest : List α)
    (x y : α) : ((a :: rest) ++ [x]).getD (rest.length + 1) y = x := by
  simpa using getD_append_length (a :: rest) x y

lemma assignStarts_getD_uniform {α : Type} (D : ℚ) (l : List (Clip α))
    (hD : ∀ c ∈ l, c.duration = D) (t : ℚ) (i : Nat) (hi : i < l.length)
    (y : Clip α) :
    (assignStarts t l).getD i y = (l.getD i y).set_start (t + i * D) := by
  induction l generalizing t i with
  | nil => simp at hi
  | cons c cs ih =>
    cases i with
    | zero => simp [assignStarts]
    | succ j =>
      have hc : c.duration = D := hD c (List.mem_cons_self c cs)
      have hcs : ∀ x ∈ cs, x.duration = D := fun x hx =>
        hD x (List.mem_cons_of_mem c hx)
      have hj : j < cs.length := by simpa using hi
      simp only [assignStarts, List.getD_cons_succ]
      rw [ih hcs (t + c.duration) j hj, hc]
      congr 1
      push_cast
      ring

lemma assignStarts_map_image {α : Type} (t : ℚ) (l : List (Clip α)) :
    (assignStarts t l).map Clip.image = l.map Clip.image := by
  induction l generalizing t with
  | nil => rfl
  | cons c cs ih => simp [assignStarts, Clip.set_start, ih]

lemma le_maxEnds {α : Type} (l : List (Clip α)) :
    ∀ c ∈ l, c.endTime ≤ maxEnds l := by
  induction l with
  | nil => intro c hc; cases hc
  | cons c0 cs ih =>
    intro c hc
    cases cs with
    | nil =>
      have : c = c0 := by simpa using hc
      subst this
      simp [maxEnds]
    | cons c1 cs1 =>
      rcases List.mem_cons.mp hc with h | h
      · subst h
        exact le_max_left _ _
      · exact le_trans (ih c h) (le_max_right _ _)

lemma maxEnds_le {α : Type} (l : List (Clip α)) (b : ℚ)
    (hb : ∀ c ∈ l, c.endTime ≤ b) (hne : l ≠ []) : maxEnds l ≤ b := by
  induction l with
  | nil => cases hne rfl
  | cons c0 cs ih =>
    cases cs with
    | nil => simpa [maxEnds] using hb c0 (List.mem_cons_self _ _)
    | cons c1 cs1 =>
      have h0 : c0.endTime ≤ b := hb c0 (List.mem_cons_self _ _)
      have h1 : maxEnds (c1 :: cs1) ≤ b := by
        refine ih ?_ (List.cons_ne_nil _ _)
        intro c hc
        exact hb c (List.mem_cons_of_mem _ hc)
      exact max_le h0 h1

/-! ### Closed forms of the three branches of `create_seamless_sequence` -/

/-- On a non-empty input with `transition_duration ≤ 0`,
`create_seamless_sequence` returns the plain back-to-back concatenation of
the input clips (no duplicate of the first image is appended). -/
lemma schedule_nonpos_eq {α : Type} (a : α) (rest : List α) (D d : ℚ)
    (hd : d ≤ 0) (k : TransitionKind) :
    schedule (a :: rest) D k d =
      .ok (concatenate_videoclips
        ((a :: rest).map (fun b => (ImageClip b).set_duration D))) := by
  simp [schedule, create_seamless_sequence, hd]

/-- Closed form of the `crossfade` branch: on a non-empty input with
positive transition duration, clip `i` of the working sequence (the input
followed by a copy of the first clip) is scheduled at start
`i * (D - d)`, with a crossfade-in window of length `d` for `i > 0`. -/
lemma schedule_crossfade_eq {α : Type} (a : α) (rest : List α) (D d : ℚ)
    (hd : 0 < d) :
    schedule (a :: rest) D TransitionKind.crossfade d =
      .ok (CompositeVideoClip ((List.range (rest.length + 2)).map (fun i =>
        ⟨((a :: rest) ++ [a]).getD i a, D, (i : ℚ) * (D - d),
          if 0 < i then d else 0, 0⟩))) := by
  simp only [schedule, List.map_cons, create_seamless_sequence,
    if_neg (not_le.mpr hd)]
  congr 2
  apply List.ext_getElem
  · simp
  · intro i h1 h2
    have hi : i < rest.length + 2 := by
      simpa using h2
    have hw : ((ImageClip a).set_duration D ::
          rest.map (fun b => (ImageClip b).set_duration D)) ++
            [(ImageClip a).set_duration D] =
        ((a :: rest) ++ [a]).map (fun b => (ImageClip b).set_duration D) := by
      simp
    have hwlen : i < (((a :: rest) ++ [a]).map
        (fun b => (ImageClip b).set_duration D)).length := by
      simpa using hi
    have hilen : i < ((a :: rest) ++ [a]).length := by
      simpa using hi
    rw [List.getElem_map, List.getElem_map, List.getElem_range,
      List.getElem_range, hw, List.getD_eq_getElem _ _ hwlen,
      List.getD_eq_getElem _ _ hilen, List.getElem_map]
    rcases Nat.eq_zero_or_pos i with h | h <;>
      simp [h, ImageClip, Clip.set_duration, Clip.crossfadein,
        Clip.set_start]

/-- Closed form of the `fade_black` branch: on a non-empty input with
positive transition duration, the list handed to
`concatenate_videoclips` consists of the working clips `0 .. m-2`, each
with a fade-out window of half the transition duration (and the start
assigned in the loop, later overwritten by the concatenation), followed by
the faded-in copy of the duplicated first clip. -/
lemma schedule_fade_black_eq {α : Type} (a : α) (rest : List α) (D d : ℚ)
    (hd : 0 < d) :
    schedule (a :: rest) D TransitionKind.fade_black d =
      .ok (concatenate_videoclips
        (((List.range (rest.length + 1)).map (fun i =>
            ⟨((a :: rest) ++ [a]).getD i a, D,
              if 0 < i then (i : ℚ) * D else 0, 0, d / 2⟩))
          ++ [⟨a, D, (rest.length : ℚ) * D + D - d / 2, d / 2, 0⟩])) := by
  have hw : ((ImageClip a).set_duration D ::
        rest.map (fun b => (ImageClip b).set_duration D)) ++
          [(ImageClip a).set_duration D] =
      ((a :: rest) ++ [a]).map (fun b => (ImageClip b).set_duration D) := by
    simp
  simp only [schedule, List.map_cons, create_seamless_sequence,
    if_neg (not_le.mpr hd)]
  congr 2
  apply List.ext_getElem
  · simp
  · intro i h1 h2
    have hi : i < rest.length + 2 := by
      simp at h2
      omega
    simp only [hw]
    have hK1 : (((a :: rest) ++ [a]).map
        (fun b => (ImageClip b).set_duration D)).length - 1 =
          rest.length + 1 := by
      simp
    have hK2 : (((a :: rest) ++ [a]).map
        (fun b => (ImageClip b).set_duration D)).length - 2 =
          rest.length := by
      simp
    simp only [hK1, hK2]
    rcases Nat.lt_or_ge i (rest.length + 1) with hcase | hcase
    · have hWlen : i < (((a :: rest) ++ [a]).map
          (fun b => (ImageClip b).set_duration D)).length := by
        simpa using hi
      have hilen : i < ((a :: rest) ++ [a]).length := by
        simpa using hi
      rw [List.getElem_append_left (by simpa using hcase),
        List.getElem_append_left (by simpa using hcase),
        List.getElem_map, List.getElem_map, List.getElem_range,
        List.getD_eq_getElem _ _ hWlen,
        List.getD_eq_getElem _ _ hilen, List.getElem_map]
      rcases Nat.eq_zero_or_pos i with h | h <;>
        simp [h, ImageClip, Clip.set_duration, Clip.fadeout,
          Clip.set_start]
    · have hieq : i = rest.length + 1 := by omega
      subst hieq
      rw [List.getElem_append_right (by simp),
        List.getElem_append_right (by simp)]
      simp only [List.length_map, List.length_range, Nat.sub_self,
        List.getElem_cons_zero]
      rw [getD_map, getD_map, getD_cons_append_length a rest a a]
      simp [ImageClip, Clip.set_duration, Clip.fadeout, Clip.fadein,
        Clip.set_start]

/-! ### Per-branch characterizations of the resulting timeline -/

/-- With a non-positive transition duration the schedule is the `n` input
images, back-to-back, in input order, each spanning
`[i*D, (i+1)*D)` with no fades, and total duration `n*D`. -/
lemma schedule_nonpos_spec {α : Type} (a : α) (rest : List α) (D d : ℚ)
    (hd : d ≤ 0) (k : TransitionKind) :
    ∃ tl, schedule (a :: rest) D k d = .ok tl ∧
      tl.segments.length = rest.length + 1 ∧
      tl.segments.map Clip.image = a :: rest ∧
      tl.totalDuration = ((rest.length : ℚ) + 1) * D ∧
      ∀ i, i < rest.length + 1 →
        tl.segments.getD i (ImageClip a) =
          ⟨(a :: rest).getD i a, D, (i : ℚ) * D, 0, 0⟩ := by
  have hDur : ∀ c ∈ (a :: rest).map (fun b => (ImageClip b).set_duration D),
      c.duration = D := by
    intro c hc
    rcases List.mem_map.mp hc with ⟨b, hb, hbc⟩
    subst hbc
    simp [ImageClip, Clip.set_duration]
  refine ⟨_, schedule_nonpos_eq a rest D d hd k, ?_, ?_, ?_, ?_⟩
  · simp [concatenate_videoclips, assignStarts_length]
  · simp [concatenate_videoclips, assignStarts_map_image, List.map_map,
      Function.comp_def, ImageClip, Clip.set_duration]
  · simp only [concatenate_videoclips]
    rw [sum_durations_uniform D _ hDur]
    simp
  · intro i hi
    have hi2 : i < ((a :: rest).map
        (fun b => (ImageClip b).set_duration D)).length := by
      simpa using hi
    have hi3 : i < (a :: rest).length := by
      simpa using hi
    simp only [concatenate_videoclips]
    rw [assignStarts_getD_uniform D _ hDur 0 i hi2,
      List.getD_eq_getElem _ _ hi2, List.getD_eq_getElem _ _ hi3,
      List.getElem_map]
    simp [ImageClip, Clip.set_duration, Clip.set_start]

/-- With a positive transition duration, the crossfade schedule has `n+1`
segments whose images are the input images followed by a copy of the
first, segment `i` starting at `i*(D-d)` with fade-in `d` for `i ≥ 1`. -/
lemma schedule_crossfade_spec {α : Type} (a : α) (rest : List α) (D d : ℚ)
    (hd : 0 < d) :
    ∃ tl, schedule (a :: rest) D TransitionKind.crossfade d = .ok tl ∧
      tl.segments.length = rest.length + 2 ∧
      tl.segments.map Clip.image = (a :: rest) ++ [a] ∧
      ∀ i, i < rest.length + 2 →
        tl.segments.getD i (ImageClip a) =
          ⟨((a :: rest) ++ [a]).getD i a, D, (i : ℚ) * (D - d),
            if 0 < i then d else 0, 0⟩ := by
  refine ⟨_, schedule_crossfade_eq a rest D d hd, ?_, ?_, ?_⟩
  · simp [CompositeVideoClip]
  · simp only [CompositeVideoClip, List.map_map]
    apply List.ext_getElem
    · simp
    · intro i h1 h2
      have hi3 : i < ((a :: rest) ++ [a]).length := by
        simpa using h2
      simp only [List.getElem_map, List.getElem_range, Function.comp]
      rw [List.getD_eq_getElem _ _ hi3]
  · intro i hi
    have hlen : i < ((List.range (rest.length + 2)).map
        (fun i => (⟨((a :: rest) ++ [a]).getD i a, D, (i : ℚ) * (D - d),
          if 0 < i then d else 0, 0⟩ : Clip α))).length := by
      simpa using hi
    simp only [CompositeVideoClip]
    rw [List.getD_eq_getElem _ _ hlen, List.getElem_map, List.getElem_range]

/-- With a positive transition duration, the fade-to-black schedule has
`n+1` back-to-back segments (the input images followed by a copy of the
first), each starting at `i*D`; segments `0 .. n-1` carry only a fade-out
of `d/2`, and only the final duplicated segment carries a fade-in of
`d/2`. -/
lemma schedule_fade_black_spec {α : Type} (a : α) (rest : List α)
    (D d : ℚ) (hd : 0 < d) :
    ∃ tl, schedule (a :: rest) D TransitionKind.fade_black d = .ok tl ∧
      tl.segments.length = rest.length + 2 ∧
      tl.segments.map Clip.image = (a :: rest) ++ [a] ∧
      tl.totalDuration = ((rest.length : ℚ) + 2) * D ∧
      ∀ i, i < rest.length + 2 →
        tl.segments.getD i (ImageClip a) =
          ⟨((a :: rest) ++ [a]).getD i a, D, (i : ℚ) * D,
            if i = rest.length + 1 then d / 2 else 0,
            if i = rest.length + 1 then 0 else d / 2⟩ := by
  have hDur : ∀ c ∈ ((List.range (rest.length + 1)).map (fun i =>
        (⟨((a :: rest) ++ [a]).getD i a, D,
          if 0 < i then (i : ℚ) * D else 0, 0, d / 2⟩ : Clip α)) ++
        [(⟨a, D, (rest.length : ℚ) * D + D - d / 2, d / 2, 0⟩ : Clip α)]),
      c.duration = D := by
    intro c hc
    rcases List.mem_append.mp hc with h | h
    · rcases List.mem_map.mp h with ⟨j, hj, hjc⟩
      subst hjc
      rfl
    · simp only [List.mem_singleton] at h
      subst h
      rfl
  have hget : ∀ i, i < rest.length + 2 →
      (concatenate_videoclips ((List.range (rest.length + 1)).map (fun i =>
        (⟨((a :: rest) ++ [a]).getD i a, D,
          if 0 < i then (i : ℚ) * D else 0, 0, d / 2⟩ : Clip α)) ++
        [(⟨a, D, (rest.length : ℚ) * D + D - d / 2, d / 2,
          0⟩ : Clip α)])).segments.getD i (ImageClip a) =
        ⟨((a :: rest) ++ [a]).getD i a, D, (i : ℚ) * D,
          if i = rest.length + 1 then d / 2 else 0,
          if i = rest.length + 1 then 0 else d / 2⟩ := by
    intro i hi
    have hiL : i < ((List.range (rest.length + 1)).map (fun i =>
        (⟨((a :: rest) ++ [a]).getD i a, D,
          if 0 < i then (i : ℚ) * D else 0, 0, d / 2⟩ : Clip α)) ++
        [(⟨a, D, (rest.length : ℚ) * D + D - d / 2, d / 2,
          0⟩ : Clip α)]).length := by
      simp
      omega
    simp only [concatenate_videoclips]
    rw [assignStarts_getD_uniform D _ hDur 0 i hiL,
      List.getD_eq_getElem _ _ hiL]
    rcases Nat.lt_or_ge i (rest.length + 1) with hc | hc
    · rw [List.getElem_append_left (by simpa using hc),
        List.getElem_map, List.getElem_range]
      have hne : ¬ i = rest.length + 1 := by omega
      rcases Nat.eq_zero_or_pos i with h0 | h0 <;>
        simp [h0, hne, Clip.set_start]
    · have hieq : i = rest.length + 1 := by omega
      subst hieq
      rw [List.getElem_append_right (by simp)]
      simp only [List.length_map, List.length_range, Nat.sub_self,
        List.getElem_cons_zero]
      rw [getD_cons_append_length a rest a a]
      simp only [Clip.set_start, if_pos rfl]
      congr 1
      push_cast
      ring
  refine ⟨_, schedule_fade_black_eq a rest D d hd, ?_, ?_, ?_, hget⟩
  · simp [concatenate_videoclips, assignStarts_length]
  · apply List.ext_getElem
    · simp [concatenate_videoclips, assignStarts_length]
    · intro i h1 h2
      have hi : i < rest.length + 2 := by
        simp at h2
        omega
      have hseg : i < (concatenate_videoclips ((List.range
          (rest.length + 1)).map (fun i =>
          (⟨((a :: rest) ++ [a]).getD i a, D,
            if 0 < i then (i : ℚ) * D else 0, 0, d / 2⟩ : Clip α)) ++
          [(⟨a, D, (rest.length : ℚ) * D + D - d / 2, d / 2,
            0⟩ : Clip α)])).segments.length := by
        simp [concatenate_videoclips, assignStarts_length]
        omega
      have hwi : i < ((a :: rest) ++ [a]).length := by
        simp
        omega
      rw [List.getElem_map,
        ← List.getD_eq_getElem _ (ImageClip a) hseg, hget i hi,
        List.getD_eq_getElem _ _ hwi]
  · simp only [concatenate_videoclips]
    rw [sum_durations_uniform D _ hDur]
    simp only [List.length_append, List.length_map, List.length_range,
      List.length_singleton]
    push_cast
    ring

/-! ### Claim theorems -/

/-- C3: for every non-empty image list, `D > 0` and transition duration 0
(regardless of kind), the segments are back-to-back: segment `i` spans
`[i*D, (i+1)*D)`, has no fades, and the total duration is `n*D`. -/
theorem zero_transition_back_to_back {α : Type} (a : α) (rest : List α)
    (D : ℚ) (hD : 0 < D) (k : TransitionKind) :
    ∃ tl, schedule (a :: rest) D k 0 = .ok tl ∧
      tl.segments.length = (a :: rest).length ∧
      tl.totalDuration = ((a :: rest).length : ℚ) * D ∧
      ∀ i, i < (a :: rest).length →
        (tl.segments.getD i (ImageClip a)).start = (i : ℚ) * D ∧
        (tl.segments.getD i (ImageClip a)).endTime = ((i : ℚ) + 1) * D ∧
        (tl.segments.getD i (ImageClip a)).fadeIn = 0 ∧
        (tl.segments.getD i (ImageClip a)).fadeOut = 0 := by
  obtain ⟨tl, htl, hlen, _, htot, hget⟩ :=
    schedule_nonpos_spec a rest D 0 le_rfl k
  refine ⟨tl, htl, by simpa using hlen, ?_, ?_⟩
  · rw [htot]
    simp only [List.length_cons]
    push_cast
    ring
  · intro i hi
    have hi2 : i < rest.length + 1 := by
      simpa using hi
    rw [hget i hi2]
    refine ⟨rfl, ?_, rfl, rfl⟩
    simp [Clip.endTime]
    ring

/-- C6 counterexample: at transition duration `-1` the code raises no
error; it returns a timeline (the claim says it must fail with
`InvalidTransitionError` and produce no timeline). -/
theorem negative_duration_no_error_cex :
    ∃ tl, schedule [0] 1 TransitionKind.crossfade (-1) = .ok tl :=
  ⟨_, rfl⟩

/-- C6 (amended): for a negative transition duration the code does not
fail; on a non-empty input it behaves exactly like duration 0, producing
the back-to-back no-transition schedule with `n` segments, no fades and
total duration `n*D`. -/
theorem negative_duration_back_to_back {α : Type} (a : α) (rest : List α)
    (D d : ℚ) (hd : d < 0) (k : TransitionKind) :
    ∃ tl, schedule (a :: rest) D k d = .ok tl ∧
      tl.segments.length = (a :: rest).length ∧
      tl.totalDuration = ((a :: rest).length : ℚ) * D ∧
      ∀ i, i < (a :: rest).length →
        (tl.segments.getD i (ImageClip a)).fadeIn = 0 ∧
        (tl.segments.getD i (ImageClip a)).fadeOut = 0 := by
  obtain ⟨tl, htl, hlen, _, htot, hget⟩ :=
    schedule_nonpos_spec a rest D d (le_of_lt hd) k
  refine ⟨tl, htl, by simpa using hlen, ?_, ?_⟩
  · rw [htot]
    simp only [List.length_cons]
    push_cast
    ring
  · intro i hi
    have hi2 : i < rest.length + 1 := by
      simpa using hi
    rw [hget i hi2]
    exact ⟨rfl, rfl⟩

/-- C7: scheduling the empty image list fails with the empty-input error,
and only the empty list does: every non-empty list produces a timeline. -/
theorem empty_input_error_characterization {α : Type} :
    (∀ (D d : ℚ) (k : TransitionKind),
      schedule ([] : List α) D k d = .error .emptyInput) ∧
    (∀ (a : α) (rest : List α) (D d : ℚ) (k : TransitionKind),
      ∃ tl, schedule (a :: rest) D k d = .ok tl) := by
  constructor
  · intro D d k
    rfl
  · intro a rest D d k
    rcases le_or_lt d 0 with h | h
    · obtain ⟨tl, htl, -⟩ := schedule_nonpos_spec a rest D d h k
      exact ⟨tl, htl⟩
    · cases k with
      | crossfade =>
        obtain ⟨tl, htl, -⟩ := schedule_crossfade_spec a rest D d h
        exact ⟨tl, htl⟩
      | fade_black =>
        obtain ⟨tl, htl, -⟩ := schedule_fade_black_spec a rest D d h
        exact ⟨tl, htl⟩

/-- C9: the scheduler is deterministic — two runs on identical inputs
yield identical timelines. -/
theorem schedule_deterministic {α : Type} (images : List α) (D d : ℚ)
    (k : TransitionKind) (tl1 tl2 : Timeline α)
    (h1 : schedule images D k d = .ok tl1)
    (h2 : schedule images D k d = .ok tl2) : tl1 = tl2 := by
  rw [h1] at h2
  exact Except.ok.inj h2

/-- C9 witness: the determinism theorem applied at a concrete input. -/
theorem schedule_deterministic_witness :
    (⟨[⟨0, 1, 0, 0, 0⟩, ⟨0, 1, 0, 1, 0⟩], 1⟩ : Timeline ℕ) =
      ⟨[⟨0, 1, 0, 0, 0⟩, ⟨0, 1, 0, 1, 0⟩], 1⟩ :=
  schedule_deterministic [0] 1 1 TransitionKind.crossfade _ _
    (by simp [schedule, create_seamless_sequence, concatenate_videoclips,
      CompositeVideoClip, assignStarts, maxEnds, ImageClip,
      Clip.set_duration, Clip.set_start, Clip.crossfadein, Clip.endTime,
      List.range_succ])
    (by simp [schedule, create_seamless_sequence, concatenate_videoclips,
      CompositeVideoClip, assignStarts, maxEnds, ImageClip,
      Clip.set_duration, Clip.set_start, Clip.crossfadein, Clip.endTime,
      List.range_succ])

/-- C10 (implicit): with `transition.duration ≤ 0` and a non-empty input,
the schedule has exactly `n` segments showing the input images in order —
no loop-closing duplicate of the first image, and the final segment shows
the last input image. -/
theorem nonpos_duration_no_loop_closure {α : Type} (a : α)
    (rest : List α) (D d : ℚ) (hd : d ≤ 0) (k : TransitionKind) :
    ∃ tl, schedule (a :: rest) D k d = .ok tl ∧
      tl.segments.length = (a :: rest).length ∧
      tl.segments.map Clip.image = a :: rest ∧
      (tl.segments.map Clip.image).getLast? = (a :: rest).getLast? := by
  obtain ⟨tl, htl, hlen, himg, -, -⟩ :=
    schedule_nonpos_spec a rest D d hd k
  exact ⟨tl, htl, by simpa using hlen, himg, by rw [himg]⟩

/-- C3 witness: scenario A — 3 images, `D = 2`, `d = 0`. -/
theorem zero_transition_back_to_back_witness :
    ∃ tl, schedule [0, 1, 2] 2 TransitionKind.crossfade 0 = .ok tl ∧
      tl.segments.length = [0, 1, 2].length ∧
      tl.totalDuration = (([0, 1, 2].length : ℕ) : ℚ) * 2 ∧
      ∀ i, i < [0, 1, 2].length →
        (tl.segments.getD i (ImageClip 0)).start = (i : ℚ) * 2 ∧
        (tl.segments.getD i (ImageClip 0)).endTime = ((i : ℚ) + 1) * 2 ∧
        (tl.segments.getD i (ImageClip 0)).fadeIn = 0 ∧
        (tl.segments.getD i (ImageClip 0)).fadeOut = 0 :=
  zero_transition_back_to_back 0 [1, 2] 2 two_pos TransitionKind.crossfade

/-- C6 witness: the amended claim applied at 2 images, `D = 2`,
`d = -1`. -/
theorem negative_duration_back_to_back_witness :
    ∃ tl, schedule [0, 1] 2 TransitionKind.fade_black (-1) = .ok tl ∧
      tl.segments.length = [0, 1].length ∧
      tl.totalDuration = (([0, 1].length : ℕ) : ℚ) * 2 ∧
      ∀ i, i < [0, 1].length →
        (tl.segments.getD i (ImageClip 0)).fadeIn = 0 ∧
        (tl.segments.getD i (ImageClip 0)).fadeOut = 0 :=
  negative_duration_back_to_back 0 [1] 2 (-1) neg_one_lt_zero
    TransitionKind.fade_black

/-- C10 witness: 2 images, `D = 1`, `d = 0`, crossfade kind. -/
theorem nonpos_duration_no_loop_closure_witness :
    ∃ tl, schedule [3, 4] 1 TransitionKind.crossfade 0 = .ok tl ∧
      tl.segments.length = [3, 4].length ∧
      tl.segments.map Clip.image = [3, 4] ∧
      (tl.segments.map Clip.image).getLast? = [3, 4].getLast? :=
  nonpos_duration_no_loop_closure 3 [4] 1 0 le_rfl TransitionKind.crossfade

/-- C1 counterexample: with one image, `D = 1` and crossfade `d = 2`
(the claim assumes only `0 < d`), the last (duplicated) segment starts at
`t_1 = 1*(1-2) = -1`, and the code's total duration is `1`, not
`t_1 + D = 0` as the claim requires. -/
theorem crossfade_totalDuration_cex :
    schedule [0] 1 TransitionKind.crossfade 2 =
      .ok ⟨[⟨0, 1, 0, 0, 0⟩, ⟨0, 1, -1, 2, 0⟩], 1⟩ ∧
    (1 : ℚ) * (1 - 2) = -1 ∧ ((-1 : ℚ) + 1 = 0) ∧ (1 : ℚ) ≠ 0 := by
  refine ⟨?_, by norm_num, by norm_num, by norm_num⟩
  norm_num [schedule, create_seamless_sequence, concatenate_videoclips,
    CompositeVideoClip, assignStarts, maxEnds, ImageClip,
    Clip.set_duration, Clip.set_start, Clip.crossfadein, Clip.endTime,
    List.range_succ]

/-- C1 (amended: the `totalDuration = t_n + D` clause additionally needs
`d ≤ D`; the rest is as claimed): for a non-empty image list of length
`n`, `D > 0` and crossfade `d > 0`, the schedule has `n+1` segments (the
first image appended at the end), segment `i` starts at `t_i = i*(D-d)`,
has `fadeIn = d` for `i ≥ 1` and `0` for segment 0, and ends at
`t_i + D`; provided `d ≤ D`, `totalDuration = t_n + D`. -/
theorem crossfade_schedule_correct {α : Type} (a : α) (rest : List α)
    (D d : ℚ) (hD : 0 < D) (hd : 0 < d) :
    ∃ tl, schedule (a :: rest) D TransitionKind.crossfade d = .ok tl ∧
      tl.segments.length = (a :: rest).length + 1 ∧
      (∀ i, i < (a :: rest).length + 1 →
        (tl.segments.getD i (ImageClip a)).start = (i : ℚ) * (D - d) ∧
        (tl.segments.getD i (ImageClip a)).endTime =
          (i : ℚ) * (D - d) + D ∧
        (tl.segments.getD i (ImageClip a)).fadeIn =
          if 0 < i then d else 0) ∧
      (d ≤ D →
        tl.totalDuration = ((a :: rest).length : ℚ) * (D - d) + D) := by
  obtain ⟨tl, htl, hlen, -, hget⟩ := schedule_crossfade_spec a rest D d hd
  have heq := schedule_crossfade_eq a rest D d hd
  rw [htl] at heq
  have htleq := Except.ok.inj heq
  refine ⟨tl, htl, by simpa using hlen, ?_, ?_⟩
  · intro i hi
    have hi2 : i < rest.length + 2 := by
      simpa using hi
    rw [hget i hi2]
    exact ⟨rfl, rfl, rfl⟩
  · intro hdD
    have hseg : tl.segments = (List.range (rest.length + 2)).map (fun i =>
        (⟨((a :: rest) ++ [a]).getD i a, D, (i : ℚ) * (D - d),
          if 0 < i then d else 0, 0⟩ : Clip α)) := by
      rw [htleq]
      rfl
    have hne : tl.segments ≠ [] := by
      rw [hseg]
      intro hc
      have := congrArg List.length hc
      simp at this
    have hub : ∀ c ∈ tl.segments,
        c.endTime ≤ ((rest.length : ℚ) + 1) * (D - d) + D := by
      intro c hc
      rw [hseg] at hc
      rcases List.mem_map.mp hc with ⟨i, hi, hic⟩
      subst hic
      have hile : i ≤ rest.length + 1 := by
        have := List.mem_range.mp hi
        omega
      have hcast : (i : ℚ) ≤ (rest.length : ℚ) + 1 := by
        push_cast
        exact_mod_cast hile
      simp only [Clip.endTime]
      have : (i : ℚ) * (D - d) ≤ ((rest.length : ℚ) + 1) * (D - d) :=
        mul_le_mul_of_nonneg_right hcast (by linarith)
      linarith
    have hmem : (⟨((a :: rest) ++ [a]).getD (rest.length + 1) a, D,
        ((rest.length + 1 : ℕ) : ℚ) * (D - d),
        if 0 < rest.length + 1 then d else 0, 0⟩ : Clip α) ∈
        tl.segments := by
      rw [hseg]
      exact List.mem_map.mpr ⟨rest.length + 1,
        List.mem_range.mpr (by omega), rfl⟩
    have hlb := le_maxEnds tl.segments _ hmem
    have hub2 := maxEnds_le tl.segments _ hub hne
    have htot : tl.totalDuration = maxEnds tl.segments := by
      rw [htleq]
      rfl
    rw [htot]
    have hend : (⟨((a :: rest) ++ [a]).getD (rest.length + 1) a, D,
        ((rest.length + 1 : ℕ) : ℚ) * (D - d),
        if 0 < rest.length + 1 then d else 0, 0⟩ : Clip α).endTime =
        ((rest.length : ℚ) + 1) * (D - d) + D := by
      simp [Clip.endTime]
    rw [hend] at hlb
    have : maxEnds tl.segments = ((rest.length : ℚ) + 1) * (D - d) + D :=
      le_antisymm hub2 hlb
    rw [this]
    simp only [List.length_cons]
    push_cast
    ring

/-- C1 witness: scenario B — 3 images, `D = 2`, crossfade `d = 1`
(an integral instance of the same formulas; starts `0, 1, 2, 3` and
total duration `5`). -/
theorem crossfade_schedule_correct_witness :
    ∃ tl, schedule [0, 1, 2] 2 TransitionKind.crossfade 1 = .ok tl ∧
      tl.segments.length = [0, 1, 2].length + 1 ∧
      (∀ i, i < [0, 1, 2].length + 1 →
        (tl.segments.getD i (ImageClip 0)).start = (i : ℚ) * (2 - 1) ∧
        (tl.segments.getD i (ImageClip 0)).endTime =
          (i : ℚ) * (2 - 1) + 2 ∧
        (tl.segments.getD i (ImageClip 0)).fadeIn =
          if 0 < i then 1 else 0) ∧
      ((1 : ℚ) ≤ 2 →
        tl.totalDuration = (([0, 1, 2].length : ℕ) : ℚ) * (2 - 1) + 2) :=
  crossfade_schedule_correct 0 [1, 2] 2 1 two_pos one_pos

/-- C2: for every non-empty image list and `d > 0`, both transition kinds
append a copy of the first image at the end of the working sequence (the
final segment's image equals the first segment's image); and for
crossfade with `d < D` the `n+1` segments form exactly `n` consecutive
overlapping pairs, each overlap window of length exactly `d`. -/
theorem loop_closure_and_overlaps {α : Type} (a : α) (rest : List α)
    (D d : ℚ) (hd : 0 < d) :
    (∀ k, ∃ tl, schedule (a :: rest) D k d = .ok tl ∧
      tl.segments.map Clip.image = (a :: rest) ++ [a]) ∧
    (d < D → ∃ tl,
      schedule (a :: rest) D TransitionKind.crossfade d = .ok tl ∧
      tl.segments.length = (a :: rest).length + 1 ∧
      ∀ i, i + 1 < (a :: rest).length + 1 →
        (tl.segments.getD i (ImageClip a)).start <
          (tl.segments.getD (i + 1) (ImageClip a)).start ∧
        (tl.segments.getD (i + 1) (ImageClip a)).start <
          (tl.segments.getD i (ImageClip a)).endTime ∧
        (tl.segments.getD i (ImageClip a)).endTime -
          (tl.segments.getD (i + 1) (ImageClip a)).start = d) := by
  constructor
  · intro k
    cases k with
    | crossfade =>
      obtain ⟨tl, htl, -, himg, -⟩ := schedule_crossfade_spec a rest D d hd
      exact ⟨tl, htl, himg⟩
    | fade_black =>
      obtain ⟨tl, htl, -, himg, -, -⟩ :=
        schedule_fade_black_spec a rest D d hd
      exact ⟨tl, htl, himg⟩
  · intro hdD
    obtain ⟨tl, htl, hlen, -, hget⟩ := schedule_crossfade_spec a rest D d hd
    refine ⟨tl, htl, by simpa using hlen, ?_⟩
    intro i hi
    have hi1 : i < rest.length + 2 := by
      simp at hi
      omega
    have hi2 : i + 1 < rest.length + 2 := by
      simp at hi
      omega
    rw [hget i hi1, hget (i + 1) hi2]
    dsimp only [Clip.endTime]
    have hsucc : ((i + 1 : ℕ) : ℚ) = (i : ℚ) + 1 := by
      push_cast
      ring
    have hpos : 0 < D - d := by linarith
    have hexp : ((i : ℚ) + 1) * (D - d) = (i : ℚ) * (D - d) + (D - d) := by
      ring
    refine ⟨?_, ?_, ?_⟩
    · rw [hsucc, hexp]
      linarith
    · rw [hsucc, hexp]
      linarith
    · rw [hsucc, hexp]
      ring

/-- C2 witness: 3 images, `D = 2`, `d = 1` (both kinds close the loop;
`d < D` gives the 3 crossfade overlap windows of length 1). -/
theorem loop_closure_and_overlaps_witness :
    (∀ k, ∃ tl, schedule [0, 1, 2] 2 k 1 = .ok tl ∧
      tl.segments.map Clip.image = [0, 1, 2] ++ [0]) ∧
    ((1 : ℚ) < 2 → ∃ tl,
      schedule [0, 1, 2] 2 TransitionKind.crossfade 1 = .ok tl ∧
      tl.segments.length = [0, 1, 2].length + 1 ∧
      ∀ i, i + 1 < [0, 1, 2].length + 1 →
        (tl.segments.getD i (ImageClip 0)).start <
          (tl.segments.getD (i + 1) (ImageClip 0)).start ∧
        (tl.segments.getD (i + 1) (ImageClip 0)).start <
          (tl.segments.getD i (ImageClip 0)).endTime ∧
        (tl.segments.getD i (ImageClip 0)).endTime -
          (tl.segments.getD (i + 1) (ImageClip 0)).start = 1) :=
  loop_closure_and_overlaps 0 [1, 2] 2 1 one_pos

/-- C8: for `d ≥ imageDuration > 0` the schedule is still produced
algebraically from the same formulas (no guard or error on this bound);
for crossfade the starts are still `i * (D - d)` (collapsing for `d = D`,
inverting for `d > D`). -/
theorem large_transition_still_scheduled {α : Type} (a : α)
    (rest : List α) (D d : ℚ) (hD : 0 < D) (hdD : D ≤ d) :
    (∀ k, ∃ tl, schedule (a :: rest) D k d = .ok tl) ∧
    (∃ tl, schedule (a :: rest) D TransitionKind.crossfade d = .ok tl ∧
      tl.segments.length = (a :: rest).length + 1 ∧
      ∀ i, i < (a :: rest).length + 1 →
        (tl.segments.getD i (ImageClip a)).start = (i : ℚ) * (D - d)) := by
  have hd : 0 < d := lt_of_lt_of_le hD hdD
  constructor
  · intro k
    cases k with
    | crossfade =>
      obtain ⟨tl, htl, -⟩ := schedule_crossfade_spec a rest D d hd
      exact ⟨tl, htl⟩
    | fade_black =>
      obtain ⟨tl, htl, -⟩ := schedule_fade_black_spec a rest D d hd
      exact ⟨tl, htl⟩
  · obtain ⟨tl, htl, hlen, -, hget⟩ := schedule_crossfade_spec a rest D d hd
    refine ⟨tl, htl, by simpa using hlen, ?_⟩
    intro i hi
    rw [hget i (by simpa using hi)]

/-- C8 witness: 1 image, `D = 1`, `d = 2 ≥ D`. -/
theorem large_transition_still_scheduled_witness :
    (∀ k, ∃ tl, schedule [0] 1 k 2 = .ok tl) ∧
    (∃ tl, schedule [0] 1 TransitionKind.crossfade 2 = .ok tl ∧
      tl.segments.length = [0].length + 1 ∧
      ∀ i, i < [0].length + 1 →
        (tl.segments.getD i (ImageClip 0)).start = (i : ℚ) * (1 - 2)) :=
  large_transition_still_scheduled 0 [] 1 2 one_pos one_le_two

/-- C4 counterexample: 2 images, `D = 1`, fade-to-black `d = 10`: the
successor of segment 0 (interior segment 1) has `fadeIn = 0`, not
`d/2 = 5`, and its `fadeOut = 5` exceeds `imageDuration/2 = 1/2`. -/
theorem fade_black_fadeIn_cex :
    schedule [0, 1] 1 TransitionKind.fade_black 10 =
      .ok ⟨[⟨0, 1, 0, 0, 5⟩, ⟨1, 1, 1, 0, 5⟩, ⟨0, 1, 2, 5, 0⟩], 3⟩ ∧
    (0 : ℚ) ≠ 10 / 2 ∧ ¬ ((5 : ℚ) ≤ 1 / 2) := by
  refine ⟨?_, by norm_num, by norm_num⟩
  norm_num [schedule, create_seamless_sequence, concatenate_videoclips,
    assignStarts, ImageClip, Clip.set_duration, Clip.set_start,
    Clip.fadein, Clip.fadeout, List.range_succ]

/-- C4 (amended): in the fade-to-black schedule of `n` images, segments
`0..n-1` carry `fadeOut = d/2` on their trailing edge but their
successors do NOT receive a leading `fadeIn`; only the final
(duplicated-first) segment carries `fadeIn = d/2` (with `fadeOut = 0`),
and the fades are not clamped to `imageDuration/2`. -/
theorem fade_black_fade_assignment {α : Type} (a : α) (rest : List α)
    (D d : ℚ) (hd : 0 < d) :
    ∃ tl, schedule (a :: rest) D TransitionKind.fade_black d = .ok tl ∧
      tl.segments.length = (a :: rest).length + 1 ∧
      (∀ i, i < (a :: rest).length →
        (tl.segments.getD i (ImageClip a)).fadeOut = d / 2 ∧
        (tl.segments.getD i (ImageClip a)).fadeIn = 0) ∧
      (tl.segments.getD (a :: rest).length (ImageClip a)).fadeIn = d / 2 ∧
      (tl.segments.getD (a :: rest).length (ImageClip a)).fadeOut = 0 := by
  obtain ⟨tl, htl, hlen, -, -, hget⟩ :=
    schedule_fade_black_spec a rest D d hd
  have hlast : (a :: rest).length < rest.length + 2 := by
    simp
  refine ⟨tl, htl, by simpa using hlen, ?_, ?_, ?_⟩
  · intro i hi
    have hi2 : i < rest.length + 2 := by
      simp at hi
      omega
    have hne : ¬ i = rest.length + 1 := by
      simp at hi
      omega
    rw [hget i hi2]
    simp [hne]
  · rw [hget _ hlast]
    simp
  · rw [hget _ hlast]
    simp

/-- C4 witness: 2 images, `D = 1`, `d = 2`. -/
theorem fade_black_fade_assignment_witness :
    ∃ tl, schedule [0, 1] 1 TransitionKind.fade_black 2 = .ok tl ∧
      tl.segments.length = [0, 1].length + 1 ∧
      (∀ i, i < [0, 1].length →
        (tl.segments.getD i (ImageClip 0)).fadeOut = 2 / 2 ∧
        (tl.segments.getD i (ImageClip 0)).fadeIn = 0) ∧
      (tl.segments.getD [0, 1].length (ImageClip 0)).fadeIn = 2 / 2 ∧
      (tl.segments.getD [0, 1].length (ImageClip 0)).fadeOut = 0 :=
  fade_black_fade_assignment 0 [1] 1 2 two_pos

/-- C5 counterexample: 1 image, `D = 2`, fade-to-black `d = 1`: the code's
total duration is `4 = (n+1)*D`, not `(n+1)*D - n*(d/2) = 7/2` as the
claim requires. -/
theorem fade_black_totalDuration_cex :
    schedule [7] 2 TransitionKind.fade_black 1 =
      .ok ⟨[⟨7, 2, 0, 0, 1 / 2⟩, ⟨7, 2, 2, 1 / 2, 0⟩], 4⟩ ∧
    ((1 : ℚ) + 1) * 2 - 1 * (1 / 2) ≠ 4 := by
  refine ⟨?_, by norm_num⟩
  norm_num [schedule, create_seamless_sequence, concatenate_videoclips,
    assignStarts, ImageClip, Clip.set_duration, Clip.set_start,
    Clip.fadein, Clip.fadeout, List.range_succ]

/-- C5 (amended): the fade-to-black total duration is the plain sum of
the `n+1` working segment durations, `(n+1)*D`; the shared `d/2` overlaps
are NOT subtracted (the concatenation plays the clips back-to-back). -/
theorem fade_black_totalDuration {α : Type} (a : α) (rest : List α)
    (D d : ℚ) (hD : 0 < D) (hd : 0 < d) :
    ∃ tl, schedule (a :: rest) D TransitionKind.fade_black d = .ok tl ∧
      tl.totalDuration = (((a :: rest).length : ℚ) + 1) * D := by
  obtain ⟨tl, htl, -, -, htot, -⟩ := schedule_fade_black_spec a rest D d hd
  refine ⟨tl, htl, ?_⟩
  rw [htot]
  simp only [List.length_cons]
  push_cast
  ring

/-- C5 witness: 1 image, `D = 1`, `d = 2`. -/
theorem fade_black_totalDuration_witness :
    ∃ tl, schedule [3] 1 TransitionKind.fade_black 2 = .ok tl ∧
      tl.totalDuration = ((([3] : List ℕ).length : ℚ) + 1) * 1 :=
  fade_black_totalDuration 3 [] 1 2 one_pos two_pos

end Slideshow
